import Mathlib

/-!
Shallow embedding of the LabelEncoder module
(src/python/cuml/preprocessing/LabelEncoder.py).

Modelling choices:
* a Python/nvstrings string is a `List Char`;
* `nvcategory.from_strings(y)` produces a category whose `keys()` are the
  sorted deduplicated input strings and whose `values()` are, for each input
  element, its index among those keys (nvcategory keeps its keys sorted);
* `cudf.Series` is a `Series`: a dtype tag plus a list of values, where a
  value is either a string or a Python int;
* `str(i)` on an int is decimal rendering (`intToStr`), and
  `nvstrings.replace(pat, rep)` replaces every occurrence of the substring
  `pat` in each string of the collection (`replaceAll`, scanning left to
  right);
* casting a string series to an integer dtype follows nvstrings `stoi`
  semantics: parse an optional leading minus sign and then the leading run
  of decimal digits (`atoi`); casting to object keeps the strings;
* Python exceptions become the `LEError` sum: `RuntimeError` from
  `_check_is_fitted` is `notFittedError`, the `KeyError` of `transform` is
  `unseenKeyError`, the `ValueError` of `_trans_back` is `valueError`, and
  the `TypeError` of `inverse_transform` is `typeError`.

Recursions that are not structural (`natDigits`, `replaceAll`) are written
with an explicit fuel argument so that every definition evaluates by kernel
reduction; fuel-irrelevance lemmas recover the intended unfolding equations.
-/

abbrev Str := List Char

/-- A decimal digit character, i.e. code point between 48 and 57. -/
def isDigitChar (c : Char) : Bool := 48 ≤ c.toNat && c.toNat ≤ 57

/-- The decimal digit character for a value below ten. -/
def digitChar : Nat → Char
| 0 => '0'
| 1 => '1'
| 2 => '2'
| 3 => '3'
| 4 => '4'
| 5 => '5'
| 6 => '6'
| 7 => '7'
| 8 => '8'
| 9 => '9'
| _ => '?'

/-- Numeric value of a digit character. -/
def digitVal (c : Char) : Nat := c.toNat - 48

/-- Decimal rendering of a natural number, with fuel for termination. -/
def natDigitsAux : Nat → Nat → Str
| 0, _ => []
| fuel + 1, n =>
  if n < 10 then [digitChar n]
  else natDigitsAux fuel (n / 10) ++ [digitChar (n % 10)]

/-- Decimal rendering of a natural number (Python `str` on a nonnegative int). -/
def natDigits (n : Nat) : Str := natDigitsAux (n + 1) n

/-- Python `str` on an int: minus sign then decimal digits. -/
def intToStr (i : Int) : Str :=
  if i < 0 then '-' :: natDigits (-i).toNat else natDigits i.toNat

/-- Whether the first list is a leading segment of the second. -/
def startsWith : Str → Str → Bool
| [], _ => true
| _ :: _, [] => false
| p :: ps, c :: cs => (p == c) && startsWith ps cs

/-- `pat` occurs somewhere inside `s` as a contiguous substring. -/
def occursIn (pat s : Str) : Prop := ∃ u v, s = u ++ pat ++ v

/-- Replace every occurrence of `pat` inside `s` by `rep`, scanning left to
right; the model of `nvstrings.replace` on one string. Fueled recursion. -/
def replaceAllAux : Nat → Str → Str → Str → Str
| 0, s, _, _ => s
| fuel + 1, s, pat, rep =>
  match s with
  | [] => []
  | c :: s' =>
    if pat ≠ [] ∧ startsWith pat (c :: s') = true then
      rep ++ replaceAllAux fuel ((c :: s').drop pat.length) pat rep
    else c :: replaceAllAux fuel s' pat rep

/-- Replace every occurrence of `pat` inside `s` by `rep`. -/
def replaceAll (s pat rep : Str) : Str := replaceAllAux (s.length + 1) s pat rep

theorem digitVal_digitChar (n : Nat) (h : n < 10) : digitVal (digitChar n) = n := by
  interval_cases n <;> rfl

theorem isDigitChar_digitChar (n : Nat) (h : n < 10) :
    isDigitChar (digitChar n) = true := by
  interval_cases n <;> rfl

theorem digitChar_inj (a b : Nat) (ha : a < 10) (hb : b < 10)
    (h : digitChar a = digitChar b) : a = b := by
  have := congrArg digitVal h
  rwa [digitVal_digitChar a ha, digitVal_digitChar b hb] at this

theorem natDigitsAux_irrel : ∀ (f1 f2 n : Nat), n < f1 → n < f2 →
    natDigitsAux f1 n = natDigitsAux f2 n := by
  intro f1
  induction f1 with
  | zero => intro f2 n h1 _; exact absurd h1 (Nat.not_lt_zero n)
  | succ f ih =>
    intro f2 n h1 h2
    cases f2 with
    | zero => exact absurd h2 (Nat.not_lt_zero n)
    | succ g =>
      by_cases h : n < 10
      · simp only [natDigitsAux, if_pos h]
      · have hd : n / 10 < n := Nat.div_lt_self (by omega) (by omega)
        simp only [natDigitsAux, if_neg h]
        rw [ih g (n / 10) (by omega) (by omega)]

theorem natDigitsAux_succ (f n : Nat) :
    natDigitsAux (f + 1) n =
      if n < 10 then [digitChar n]
      else natDigitsAux f (n / 10) ++ [digitChar (n % 10)] := rfl

theorem natDigits_eq (n : Nat) :
    natDigits n =
      if n < 10 then [digitChar n]
      else natDigits (n / 10) ++ [digitChar (n % 10)] := by
  rw [show natDigits n = natDigitsAux (n + 1) n from rfl, natDigitsAux_succ]
  by_cases h : n < 10
  · rw [if_pos h, if_pos h]
  · have hd : n / 10 < n := Nat.div_lt_self (by omega) (by omega)
    rw [if_neg h, if_neg h,
      natDigitsAux_irrel n (n / 10 + 1) (n / 10) (by omega) (by omega)]
    rfl

theorem natDigits_ne_nil (n : Nat) : natDigits n ≠ [] := by
  rw [natDigits_eq]
  by_cases h : n < 10
  · simp [h]
  · simp [h]

theorem natDigits_length_pos (n : Nat) : 1 ≤ (natDigits n).length := by
  have := natDigits_ne_nil n
  cases h : natDigits n with
  | nil => exact absurd h this
  | cons a l => simp

theorem natDigits_all_digit (n : Nat) : ∀ c ∈ natDigits n, isDigitChar c = true := by
  induction n using Nat.strong_induction_on with
  | _ n ih =>
    rw [natDigits_eq]
    by_cases h : n < 10
    · simp only [if_pos h, List.mem_singleton]
      intro c hc; subst hc; exact isDigitChar_digitChar n h
    · simp only [if_neg h, List.mem_append, List.mem_singleton]
      intro c hc
      rcases hc with hc | hc
      · exact ih (n / 10) (Nat.div_lt_self (by omega) (by omega)) c hc
      · subst hc; exact isDigitChar_digitChar (n % 10) (Nat.mod_lt n (by omega))

theorem natDigits_lt_pow (n : Nat) : n < 10 ^ (natDigits n).length := by
  induction n using Nat.strong_induction_on with
  | _ n ih =>
    rw [natDigits_eq]
    by_cases h : n < 10
    · simp [h]
    · have hd : n / 10 < n := Nat.div_lt_self (by omega) (by omega)
      have hq := ih (n / 10) hd
      simp only [if_neg h, List.length_append, List.length_singleton]
      have : n = 10 * (n / 10) + n % 10 := (Nat.div_add_mod n 10).symm
      have hm : n % 10 < 10 := Nat.mod_lt n (by omega)
      calc n = 10 * (n / 10) + n % 10 := this
    _ < 10 * (n / 10) + 10 := by omega
    _ = 10 * (n / 10 + 1) := by ring
    _ ≤ 10 * (10 ^ (natDigits (n / 10)).length) := by
          have : n / 10 + 1 ≤ 10 ^ (natDigits (n / 10)).length := hq
          exact Nat.mul_le_mul_left 10 this
    _ = 10 ^ ((natDigits (n / 10)).length + 1) := by ring

theorem natDigits_pow_le (n : Nat) (h1 : 1 ≤ n) :
    10 ^ ((natDigits n).length - 1) ≤ n := by
  induction n using Nat.strong_induction_on with
  | _ n ih =>
    rw [natDigits_eq]
    by_cases h : n < 10
    · simpa [h] using h1
    · have hd : n / 10 < n := Nat.div_lt_self (by omega) (by omega)
      have hq1 : 1 ≤ n / 10 := by omega
      have hq := ih (n / 10) hd hq1
      have hlen := natDigits_length_pos (n / 10)
      simp only [if_neg h, List.length_append, List.length_singleton]
      have heq : (natDigits (n / 10)).length + 1 - 1 = (natDigits (n / 10)).length := by omega
      rw [heq]
      have step : 10 ^ (natDigits (n / 10)).length
          = 10 * 10 ^ ((natDigits (n / 10)).length - 1) := by
        conv_lhs => rw [show (natDigits (n / 10)).length
          = ((natDigits (n / 10)).length - 1) + 1 by omega]
        rw [pow_succ]
        ring
      rw [step]
      have h10 : 10 * 10 ^ ((natDigits (n / 10)).length - 1) ≤ 10 * (n / 10) :=
        Nat.mul_le_mul_left 10 hq
      have hdiv : 10 * (n / 10) ≤ n := by omega
      omega

theorem natDigits_inj : ∀ a b : Nat, natDigits a = natDigits b → a = b := by
  intro a
  induction a using Nat.strong_induction_on with
  | _ a ih =>
    intro b h
    rw [natDigits_eq a, natDigits_eq b] at h
    by_cases ha : a < 10 <;> by_cases hb : b < 10
    · rw [if_pos ha, if_pos hb] at h
      exact digitChar_inj a b ha hb (List.singleton_injective h)
    · rw [if_pos ha, if_neg hb] at h
      have := congrArg List.length h
      simp only [List.length_singleton, List.length_append] at this
      have := natDigits_length_pos (b / 10)
      omega
    · rw [if_neg ha, if_pos hb] at h
      have := congrArg List.length h
      simp only [List.length_singleton, List.length_append] at this
      have := natDigits_length_pos (a / 10)
      omega
    · rw [if_neg ha, if_neg hb] at h
      have hparts := List.append_inj' h (by simp)
      have hdiv : a / 10 = b / 10 :=
        ih (a / 10) (Nat.div_lt_self (by omega) (by omega)) (b / 10) hparts.1
      have hmod : a % 10 = b % 10 := by
        have := List.singleton_injective hparts.2
        exact digitChar_inj (a % 10) (b % 10) (Nat.mod_lt a (by omega))
          (Nat.mod_lt b (by omega)) this
      omega

theorem occursIn_nil_pat (s : Str) : occursIn [] s := ⟨[], s, rfl⟩

theorem occursIn_length_le {pat s : Str} (h : occursIn pat s) :
    pat.length ≤ s.length := by
  rcases h with ⟨u, v, rfl⟩
  simp only [List.length_append]
  omega

theorem occursIn_eq_of_length {pat s : Str} (h : occursIn pat s)
    (hlen : pat.length = s.length) : pat = s := by
  rcases h with ⟨u, v, rfl⟩
  simp only [List.length_append] at hlen
  have hu : u = [] := List.eq_nil_of_length_eq_zero (by omega)
  have hv : v = [] := List.eq_nil_of_length_eq_zero (by omega)
  subst hu; subst hv; simp

theorem occursIn_cons {pat s : Str} (c : Char) (h : occursIn pat s) :
    occursIn pat (c :: s) := by
  rcases h with ⟨u, v, rfl⟩
  exact ⟨c :: u, v, rfl⟩

theorem occursIn_mem {pat s : Str} (h : occursIn pat s) :
    ∀ c ∈ pat, c ∈ s := by
  rcases h with ⟨u, v, rfl⟩
  intro c hc
  simp [List.mem_append, hc]

theorem startsWith_append (pat s : Str) (h : startsWith pat s = true) :
    ∃ t, s = pat ++ t := by
  induction pat generalizing s with
  | nil => exact ⟨s, rfl⟩
  | cons p ps ih =>
    cases s with
    | nil => simp [startsWith] at h
    | cons c cs =>
      simp only [startsWith, Bool.and_eq_true, beq_iff_eq] at h
      rcases ih cs h.2 with ⟨t, ht⟩
      exact ⟨t, by simp [h.1, ht]⟩

theorem startsWith_self (s : Str) : startsWith s s = true := by
  induction s with
  | nil => rfl
  | cons c cs ih => simp [startsWith, ih]

theorem occursIn_of_startsWith {pat s : Str} (h : startsWith pat s = true) :
    occursIn pat s := by
  rcases startsWith_append pat s h with ⟨t, rfl⟩
  exact ⟨[], t, rfl⟩

theorem natDigits_not_occursIn {a b : Nat} (h : a < b) :
    ¬ occursIn (natDigits b) (natDigits a) := by
  intro hocc
  have hle := occursIn_length_le hocc
  rcases Nat.lt_or_ge (natDigits b).length (natDigits a).length with hlt | hge
  · have hb1 : 1 ≤ b := by omega
    have h1 : b < 10 ^ (natDigits b).length := natDigits_lt_pow b
    by_cases ha0 : a = 0
    · subst ha0
      have : (natDigits 0).length = 1 := by rw [natDigits_eq]; simp
      rw [this] at hlt
      have := natDigits_length_pos b
      omega
    · have ha1 : 1 ≤ a := by omega
      have h2 : 10 ^ ((natDigits a).length - 1) ≤ a := natDigits_pow_le a ha1
      have h3 : 10 ^ (natDigits b).length ≤ 10 ^ ((natDigits a).length - 1) :=
        Nat.pow_le_pow_right (by omega) (by omega)
      omega
  · have hlen : (natDigits b).length = (natDigits a).length := by omega
    have := occursIn_eq_of_length hocc hlen
    have := natDigits_inj b a this
    omega

theorem replaceAllAux_irrel : ∀ (f1 f2 : Nat) (s pat rep : Str),
    s.length < f1 → s.length < f2 →
    replaceAllAux f1 s pat rep = replaceAllAux f2 s pat rep := by
  intro f1
  induction f1 with
  | zero => intro f2 s pat rep h1 _; exact absurd h1 (Nat.not_lt_zero _)
  | succ f ih =>
    intro f2 s pat rep h1 h2
    cases f2 with
    | zero => exact absurd h2 (Nat.not_lt_zero _)
    | succ g =>
      cases s with
      | nil => rfl
      | cons c s' =>
        simp only [replaceAllAux]
        by_cases h : pat ≠ [] ∧ startsWith pat (c :: s') = true
        · rw [if_pos h, if_pos h]
          have hp : 1 ≤ pat.length := by
            cases hpat : pat with
            | nil => exact absurd hpat h.1
            | cons a l => simp
          have hd : ((c :: s').drop pat.length).length ≤ s'.length := by
            simp only [List.length_drop, List.length_cons]
            omega
          simp only [List.length_cons] at h1 h2
          rw [ih g ((c :: s').drop pat.length) pat rep (by omega) (by omega)]
        · rw [if_neg h, if_neg h]
          simp only [List.length_cons] at h1 h2
          rw [ih g s' pat rep (by omega) (by omega)]

theorem replaceAll_nil (pat rep : Str) : replaceAll [] pat rep = [] := rfl

theorem replaceAll_cons (c : Char) (s' pat rep : Str) :
    replaceAll (c :: s') pat rep =
      if pat ≠ [] ∧ startsWith pat (c :: s') = true then
        rep ++ replaceAll ((c :: s').drop pat.length) pat rep
      else c :: replaceAll s' pat rep := by
  have key : replaceAll (c :: s') pat rep
      = if pat ≠ [] ∧ startsWith pat (c :: s') = true then
          rep ++ replaceAllAux (s'.length + 1) ((c :: s').drop pat.length) pat rep
        else c :: replaceAllAux (s'.length + 1) s' pat rep := rfl
  rw [key]
  by_cases h : pat ≠ [] ∧ startsWith pat (c :: s') = true
  · rw [if_pos h, if_pos h]
    have hp : 1 ≤ pat.length := by
      cases hpat : pat with
      | nil => exact absurd hpat h.1
      | cons a l => simp
    congr 1
    apply replaceAllAux_irrel
    · simp only [List.length_drop, List.length_cons]
      omega
    · omega
  · rw [if_neg h, if_neg h]
    rfl

theorem replaceAll_self (s : Str) (rep : Str) (h : s ≠ []) :
    replaceAll s s rep = rep := by
  cases s with
  | nil => exact absurd rfl h
  | cons c s' =>
    rw [replaceAll_cons]
    rw [if_pos ⟨h, startsWith_self (c :: s')⟩]
    rw [List.drop_length, replaceAll_nil, List.append_nil]

theorem replaceAll_not_occurs (pat rep : Str) :
    ∀ s : Str, ¬ occursIn pat s → replaceAll s pat rep = s := by
  intro s
  induction s with
  | nil => intro _; rfl
  | cons c s' ih =>
    intro hno
    rw [replaceAll_cons]
    have hcond : ¬ (pat ≠ [] ∧ startsWith pat (c :: s') = true) := by
      intro ⟨_, hsw⟩
      exact hno (occursIn_of_startsWith hsw)
    rw [if_neg hcond]
    have : ¬ occursIn pat s' := fun h => hno (occursIn_cons c h)
    rw [ih this]

theorem replaceAll_digit_free (pat rep s : Str) (hne : pat ≠ [])
    (hpd : ∀ c ∈ pat, isDigitChar c = true)
    (hsd : ∀ c ∈ s, isDigitChar c = false) :
    replaceAll s pat rep = s := by
  apply replaceAll_not_occurs
  intro hocc
  cases hpat : pat with
  | nil => exact hne hpat
  | cons p ps =>
    have hp : p ∈ pat := by rw [hpat]; exact List.mem_cons_self p ps
    have hmem : p ∈ s := occursIn_mem hocc p hp
    have h1 := hpd p hp
    have h2 := hsd p hmem
    rw [h1] at h2
    simp at h2

theorem intToStr_nonneg (i : Int) (h : 0 ≤ i) : intToStr i = natDigits i.toNat := by
  unfold intToStr
  rw [if_neg (by omega)]

theorem intToStr_ne_nil_of_nonneg (i : Int) (h : 0 ≤ i) : intToStr i ≠ [] := by
  rw [intToStr_nonneg i h]
  exact natDigits_ne_nil i.toNat

theorem intToStr_not_occursIn {a b : Int} (ha : 0 ≤ a) (hab : a < b) :
    ¬ occursIn (intToStr b) (intToStr a) := by
  rw [intToStr_nonneg a ha, intToStr_nonneg b (by omega)]
  exact natDigits_not_occursIn (by omega)

/-- Model of `ser.unique().sort_values(ascending=False)`: insert while
dropping duplicates, keeping the list strictly descending. -/
def insertDescU (x : Int) : List Int → List Int
| [] => [x]
| y :: ys =>
  if y < x then x :: y :: ys
  else if x = y then y :: ys
  else y :: insertDescU x ys

/-- The distinct values of a list, in strictly descending order. -/
def sortDescU : List Int → List Int
| [] => []
| x :: xs => insertDescU x (sortDescU xs)

theorem mem_insertDescU (x a : Int) : ∀ l : List Int,
    a ∈ insertDescU x l ↔ a = x ∨ a ∈ l := by
  intro l
  induction l with
  | nil => simp [insertDescU]
  | cons y ys ih =>
    simp only [insertDescU]
    by_cases h1 : y < x
    · rw [if_pos h1]; simp
    · rw [if_neg h1]
      by_cases h2 : x = y
      · rw [if_pos h2]
        subst h2
        simp only [List.mem_cons]
        constructor
        · intro h; exact Or.inr h
        · intro h; rcases h with h | h
          · exact Or.inl h
          · exact h
      · rw [if_neg h2]
        simp only [List.mem_cons, ih]
        constructor
        · intro h; rcases h with h | h | h
          · exact Or.inr (Or.inl h)
          · exact Or.inl h
          · exact Or.inr (Or.inr h)
        · intro h; rcases h with h | h | h
          · exact Or.inr (Or.inl h)
          · exact Or.inl h
          · exact Or.inr (Or.inr h)

theorem pairwise_insertDescU (x : Int) : ∀ l : List Int,
    l.Pairwise (fun p q => q < p) →
    (insertDescU x l).Pairwise (fun p q => q < p) := by
  intro l
  induction l with
  | nil => intro _; simp [insertDescU]
  | cons y ys ih =>
    intro hp
    rw [List.pairwise_cons] at hp
    simp only [insertDescU]
    by_cases h1 : y < x
    · rw [if_pos h1]
      rw [List.pairwise_cons]
      refine ⟨?_, List.pairwise_cons.mpr hp⟩
      intro b hb
      rcases List.mem_cons.mp hb with hb | hb
      · omega
      · have := hp.1 b hb; omega
    · rw [if_neg h1]
      by_cases h2 : x = y
      · rw [if_pos h2]; exact List.pairwise_cons.mpr hp
      · rw [if_neg h2]
        rw [List.pairwise_cons]
        constructor
        · intro b hb
          rcases (mem_insertDescU x b ys).mp hb with hb | hb
          · subst hb; omega
          · exact hp.1 b hb
        · exact ih hp.2

theorem mem_sortDescU (a : Int) : ∀ l : List Int, a ∈ sortDescU l ↔ a ∈ l := by
  intro l
  induction l with
  | nil => simp [sortDescU]
  | cons x xs ih =>
    simp only [sortDescU, mem_insertDescU, ih, List.mem_cons]

theorem pairwise_sortDescU : ∀ l : List Int,
    (sortDescU l).Pairwise (fun p q => q < p) := by
  intro l
  induction l with
  | nil => simp [sortDescU]
  | cons x xs ih => exact pairwise_insertDescU x (sortDescU xs) ih

/-- Lexicographic comparison of strings by character code, the order
nvcategory keeps its keys in. -/
def strLt : Str → Str → Bool
| [], [] => false
| [], _ :: _ => true
| _ :: _, [] => false
| a :: as, b :: bs =>
  if a.toNat < b.toNat then true
  else if b.toNat < a.toNat then false
  else strLt as bs

/-- Insert a string into a sorted duplicate-free key list. -/
def insertKeyU (x : Str) : List Str → List Str
| [] => [x]
| y :: ys =>
  if strLt x y then x :: y :: ys
  else if x = y then y :: ys
  else y :: insertKeyU x ys

/-- `nvcategory.from_strings(l).keys()`: the sorted deduplicated strings. -/
def nvKeys : List Str → List Str
| [] => []
| s :: ss => insertKeyU s (nvKeys ss)

theorem mem_insertKeyU (x a : Str) : ∀ l : List Str,
    a ∈ insertKeyU x l ↔ a = x ∨ a ∈ l := by
  intro l
  induction l with
  | nil => simp [insertKeyU]
  | cons y ys ih =>
    simp only [insertKeyU]
    by_cases h1 : strLt x y = true
    · rw [if_pos h1]; simp
    · rw [if_neg h1]
      by_cases h2 : x = y
      · rw [if_pos h2]
        subst h2
        simp only [List.mem_cons]
        constructor
        · intro h; exact Or.inr h
        · intro h; rcases h with h | h
          · exact Or.inl h
          · exact h
      · rw [if_neg h2]
        simp only [List.mem_cons, ih]
        constructor
        · intro h; rcases h with h | h | h
          · exact Or.inr (Or.inl h)
          · exact Or.inl h
          · exact Or.inr (Or.inr h)
        · intro h; rcases h with h | h | h
          · exact Or.inr (Or.inl h)
          · exact Or.inl h
          · exact Or.inr (Or.inr h)

theorem mem_nvKeys (a : Str) : ∀ l : List Str, a ∈ nvKeys l ↔ a ∈ l := by
  intro l
  induction l with
  | nil => simp [nvKeys]
  | cons s ss ih => simp only [nvKeys, mem_insertKeyU, ih, List.mem_cons]

/-- Index of the first occurrence of a string in a key list. -/
def findIdx (s : Str) : List Str → Option Nat
| [] => none
| k :: ks => if k = s then some 0 else (findIdx s ks).map (· + 1)

/-- Element at an in-bounds index is a member. -/
theorem getD_mem {α : Type} (d : α) : ∀ (l : List α) (i : Nat), i < l.length →
    l.getD i d ∈ l := by
  intro l
  induction l with
  | nil => intro i h; simp at h
  | cons x xs ih =>
    intro i h
    cases i with
    | zero => simp
    | succ j =>
      simp only [List.length_cons] at h
      have := ih j (by omega)
      simp only [List.getD_cons_succ, List.mem_cons]
      exact Or.inr this

theorem findIdx_of_mem (s : Str) : ∀ l : List Str, s ∈ l →
    ∃ i, findIdx s l = some i ∧ i < l.length ∧ l.getD i [] = s := by
  intro l
  induction l with
  | nil => intro h; simp at h
  | cons k ks ih =>
    intro hmem
    by_cases hk : k = s
    · exact ⟨0, by simp [findIdx, hk], by simp, by simp [hk]⟩
    · have hs : s ∈ ks := by
        rcases List.mem_cons.mp hmem with h | h
        · exact absurd h.symm hk
        · exact h
      rcases ih hs with ⟨i, h1, h2, h3⟩
      refine ⟨i + 1, ?_, by simp; omega, by simpa using h3⟩
      simp [findIdx, hk, h1]

theorem findIdx_of_not_mem (s : Str) : ∀ l : List Str, s ∉ l →
    findIdx s l = none := by
  intro l
  induction l with
  | nil => intro _; rfl
  | cons k ks ih =>
    intro hmem
    have hk : k ≠ s := fun h => hmem (by rw [h]; exact List.mem_cons_self s ks)
    have hs : s ∉ ks := fun h => hmem (List.mem_cons_of_mem k h)
    simp [findIdx, hk, ih hs]

/-- `nvcategory.set_keys(keys).values()` per element: the index of the string
among the keys, `-1` when the string is not a key. -/
def lookupCode (keys : List Str) (s : Str) : Int :=
  match findIdx s keys with
  | some i => (i : Int)
  | none => -1

theorem lookupCode_of_mem (keys : List Str) (s : Str) (h : s ∈ keys) :
    0 ≤ lookupCode keys s ∧ lookupCode keys s < (keys.length : Int) ∧
      keys.getD (lookupCode keys s).toNat [] = s := by
  rcases findIdx_of_mem s keys h with ⟨i, h1, h2, h3⟩
  have hl : lookupCode keys s = (i : Int) := by
    unfold lookupCode
    rw [h1]
  rw [hl]
  refine ⟨by omega, by omega, ?_⟩
  simpa using h3

theorem lookupCode_of_not_mem (keys : List Str) (s : Str) (h : s ∉ keys) :
    lookupCode keys s = -1 := by
  unfold lookupCode
  rw [findIdx_of_not_mem s keys h]

/-- The element dtypes distinguished by the model: `object` tags string
series, `int64` tags integer series. -/
inductive Dtype
| object
| int64
deriving DecidableEq

/-- A value held by a series: a string or a Python int. -/
inductive Value
| str (s : Str)
| int (i : Int)
deriving DecidableEq

/-- A `cudf.Series`: a dtype tag and a list of values. -/
structure Series where
  dtype : Dtype
  vals : List Value
deriving DecidableEq

/-- Python `str` of a value. -/
def valueToStr : Value → Str
| Value.str s => s
| Value.int i => intToStr i

/-- Model of `_enforce_str`: the string contents of the series.  In the
source, a non-object series is cast with `astype("str")` and an object
series is passed through; in this model an object series stores `Value.str`
elements, on which `valueToStr` is the identity, so both branches are the
same element-wise string coercion. -/
def _enforce_str (y : Series) : List Str := y.vals.map valueToStr

/-- Parse the leading run of decimal digits, accumulating into `acc`. -/
def atoiNat : Str → Nat → Nat
| [], acc => acc
| c :: cs, acc =>
  if isDigitChar c then atoiNat cs (acc * 10 + digitVal c) else acc

/-- nvstrings `stoi`: optional minus sign, then the leading digits. -/
def atoi : Str → Int
| '-' :: cs => -(atoiNat cs 0 : Int)
| cs => (atoiNat cs 0 : Int)

/-- Cast one decoded string to the requested dtype
(`cudf.Series(reverted, dtype=orig_dtype)` element-wise). -/
def castTo (d : Dtype) (s : Str) : Value :=
  match d with
  | Dtype.object => Value.str s
  | Dtype.int64 => Value.int (atoi s)

/-- Build the series returned by `_trans_back`. -/
def castSeries (d : Dtype) (buf : List Str) : Series :=
  ⟨d, buf.map (castTo d)⟩

/-- The exceptions the encoder raises: `RuntimeError` of `_check_is_fitted`,
`KeyError` of `transform`, `ValueError` of `_trans_back` (carrying the
offending code), `TypeError` of `inverse_transform`. -/
inductive LEError
| notFittedError
| unseenKeyError
| valueError (c : Int)
| typeError
deriving DecidableEq

/-- The loop of `_trans_back`: for each distinct code, descending, validate
the range against `len(categories.keys())` and replace the code's decimal
text by its key across the whole string buffer. -/
def transBackLoop (keys : List Str) : List Int → List Str → Except LEError (List Str)
| [], buf => Except.ok buf
| d :: rest, buf =>
  if d < 0 ∨ (keys.length : Int) ≤ d then Except.error (LEError.valueError d)
  else transBackLoop keys rest
    (buf.map (fun s => replaceAll s (intToStr d) (keys.getD d.toNat [])))

/-- `_trans_back(ser, categories, orig_dtype)`: render the codes as decimal
strings, substitute distinct codes in descending order, then cast the buffer
back to the original dtype. -/
def _trans_back (ser : List Int) (categories : List Str) (orig_dtype : Dtype) :
    Except LEError Series :=
  match transBackLoop categories (sortDescU ser) (ser.map intToStr) with
  | Except.error e => Except.error e
  | Except.ok buf => Except.ok (castSeries orig_dtype buf)

/-- Encoder state: `_cats` holds the fitted keys, `_dtype` the pre-coercion
dtype, `_fitted` the fitted flag. -/
structure LabelEncoder where
  _cats : Option (List Str)
  _dtype : Option Dtype
  _fitted : Bool
deriving DecidableEq

/-- The state `__init__` creates (the constructor also emits
`DIGIT_WARNING`, which carries no state). -/
def labelEncoderInit : LabelEncoder := ⟨none, none, false⟩

/-- `_check_is_fitted`: raise `RuntimeError` unless `_fitted`. -/
def _check_is_fitted (le : LabelEncoder) : Except LEError Unit :=
  if le._fitted = false then Except.error LEError.notFittedError else Except.ok ()

/-- `fit`: record the dtype, build the category from the coerced strings,
mark fitted; returns `self`, i.e. the new state. -/
def fit (le : LabelEncoder) (y : Series) : LabelEncoder :=
  let _ := le
  { _cats := some (nvKeys (_enforce_str y)),
    _dtype := some y.dtype,
    _fitted := true }

/-- `transform`: check fitted, coerce to strings, take each element's code
against the fitted keys (`-1` when unseen), and raise `KeyError` when any
`-1` is present. -/
def transform (le : LabelEncoder) (y : Series) : Except LEError (List Int) :=
  match _check_is_fitted le with
  | Except.error e => Except.error e
  | Except.ok _ =>
    let ys := _enforce_str y
    let encoded := ys.map (lookupCode (le._cats.getD []))
    if (-1 : Int) ∈ encoded then Except.error LEError.unseenKeyError
    else Except.ok encoded

/-- `fit_transform`: record the dtype, build the category once, mark fitted,
and return the codes read directly off that category. -/
def fit_transform (le : LabelEncoder) (y : Series) : LabelEncoder × List Int :=
  let _ := le
  let ys := _enforce_str y
  let cats := nvKeys ys
  ({ _cats := some cats, _dtype := some y.dtype, _fitted := true },
   ys.map (lookupCode cats))

/-- The argument of `inverse_transform`: either a `cudf.Series` of codes or
some value of another type. -/
inductive InvInput
| series (codes : List Int)
| notSeries

/-- `inverse_transform`: check fitted, then dispatch on the input type:
a series is decoded by `_trans_back`, anything else raises `TypeError`. -/
def inverse_transform (le : LabelEncoder) (y : InvInput) : Except LEError Series :=
  match _check_is_fitted le with
  | Except.error e => Except.error e
  | Except.ok _ =>
    match y with
    | InvInput.series ser => _trans_back ser (le._cats.getD []) (le._dtype.getD Dtype.object)
    | InvInput.notSeries => Except.error LEError.typeError

theorem intToStr_all_digit (d : Int) (h : 0 ≤ d) :
    ∀ c ∈ intToStr d, isDigitChar c = true := by
  rw [intToStr_nonneg d h]
  exact natDigits_all_digit d.toNat

theorem enforce_str_of_strs (dt : Dtype) (L : List Str) :
    _enforce_str ⟨dt, L.map Value.str⟩ = L := by
  unfold _enforce_str
  simp only [List.map_map]
  have h : (valueToStr ∘ Value.str) = id := by funext s; rfl
  rw [h, List.map_id]

/-- Invariant of the `_trans_back` loop: with every buffer entry either the
decimal text of a still-pending code or the already-substituted key of a
processed one, running the remaining distinct codes in strictly descending
order rewrites every entry to its key, because a larger code's decimal text
never occurs inside a smaller code's text and keys free of digits are never
touched by a digit pattern. -/
theorem transBackLoop_ok (keys : List Str)
    (hkeys : ∀ k ∈ keys, ∀ c ∈ k, isDigitChar c = false) :
    ∀ (sorted ser : List Int),
      sorted.Pairwise (fun p q => q < p) →
      (∀ d ∈ sorted, 0 ≤ d ∧ d < (keys.length : Int)) →
      (∀ c ∈ ser, 0 ≤ c ∧ c < (keys.length : Int)) →
      transBackLoop keys sorted
        (ser.map (fun c => if c ∈ sorted then intToStr c else keys.getD c.toNat []))
      = Except.ok (ser.map (fun c => keys.getD c.toNat [])) := by
  intro sorted
  induction sorted with
  | nil =>
    intro ser _ _ _
    have h : (fun c : Int => if c ∈ ([] : List Int) then intToStr c else keys.getD c.toNat [])
        = fun c : Int => keys.getD c.toNat [] := by
      funext c
      simp
    rw [h]
    simp only [transBackLoop]
  | cons d rest ih =>
    intro ser hpw hrange hser
    rw [List.pairwise_cons] at hpw
    have hd := hrange d (List.mem_cons_self d rest)
    simp only [transBackLoop]
    rw [if_neg (by omega)]
    rw [List.map_map]
    have hmap : ser.map ((fun s => replaceAll s (intToStr d) (keys.getD d.toNat []))
          ∘ (fun c => if c ∈ d :: rest then intToStr c else keys.getD c.toNat []))
        = ser.map (fun c => if c ∈ rest then intToStr c else keys.getD c.toNat []) := by
      apply List.map_congr_left
      intro c hc
      simp only [Function.comp_apply]
      by_cases hmem : c ∈ d :: rest
      · rw [if_pos hmem]
        by_cases hcd : c = d
        · subst hcd
          rw [replaceAll_self _ _ (intToStr_ne_nil_of_nonneg c hd.1)]
          have hnotin : c ∉ rest := by
            intro hin
            have := hpw.1 c hin
            omega
          rw [if_neg hnotin]
        · have hcr : c ∈ rest := by
            rcases List.mem_cons.mp hmem with h1 | h1
            · exact absurd h1 hcd
            · exact h1
          have hlt : c < d := hpw.1 c hcr
          have hc0 : 0 ≤ c := (hser c hc).1
          rw [replaceAll_not_occurs _ _ _ (intToStr_not_occursIn hc0 hlt)]
          rw [if_pos hcr]
      · rw [if_neg hmem]
        have hcr : c ∉ rest := fun h1 => hmem (List.mem_cons_of_mem d h1)
        have hcb := hser c hc
        have hkmem : keys.getD c.toNat [] ∈ keys :=
          getD_mem [] keys c.toNat (by omega)
        rw [replaceAll_digit_free (intToStr d) (keys.getD d.toNat []) _
          (intToStr_ne_nil_of_nonneg d hd.1) (intToStr_all_digit d hd.1)
          (hkeys _ hkmem)]
        rw [if_neg hcr]
    rw [hmap]
    exact ih ser hpw.2 (fun x hx => hrange x (List.mem_cons_of_mem d hx)) hser

/-- When some pending code is out of range, the `_trans_back` loop always
ends in a `ValueError`. -/
theorem transBackLoop_err (keys : List Str) :
    ∀ (sorted : List Int) (buf : List Str),
      (∃ d ∈ sorted, d < 0 ∨ (keys.length : Int) ≤ d) →
      ∃ d, transBackLoop keys sorted buf = Except.error (LEError.valueError d) := by
  intro sorted
  induction sorted with
  | nil =>
    intro buf h
    rcases h with ⟨d, hd, _⟩
    simp at hd
  | cons d rest ih =>
    intro buf h
    by_cases hbad : d < 0 ∨ (keys.length : Int) ≤ d
    · exact ⟨d, by simp only [transBackLoop]; rw [if_pos hbad]⟩
    · rcases h with ⟨e, he, hbe⟩
      have her : e ∈ rest := by
        rcases List.mem_cons.mp he with h1 | h1
        · subst h1; exact absurd hbe hbad
        · exact h1
      rcases ih (buf.map (fun s => replaceAll s (intToStr d) (keys.getD d.toNat [])))
        ⟨e, her, hbe⟩ with ⟨d', hd'⟩
      exact ⟨d', by simp only [transBackLoop]; rw [if_neg hbad]; exact hd'⟩

theorem fit_eq (le : LabelEncoder) (y : Series) :
    fit le y
      = ⟨some (nvKeys (_enforce_str y)), some y.dtype, true⟩ := rfl

theorem fit_transform_eq (le : LabelEncoder) (y : Series) :
    fit_transform le y
      = (⟨some (nvKeys (_enforce_str y)), some y.dtype, true⟩,
         (_enforce_str y).map (lookupCode (nvKeys (_enforce_str y)))) := rfl

theorem transform_fitted (le : LabelEncoder) (hf : le._fitted = true) (y : Series) :
    transform le y
      = (if (-1 : Int) ∈ (_enforce_str y).map (lookupCode (le._cats.getD [])) then
          Except.error LEError.unseenKeyError
        else Except.ok ((_enforce_str y).map (lookupCode (le._cats.getD [])))) := by
  obtain ⟨cats, dt, f⟩ := le
  have hf' : f = true := hf
  subst hf'
  rfl

theorem inverse_transform_fitted (le : LabelEncoder) (hf : le._fitted = true)
    (ser : List Int) :
    inverse_transform le (InvInput.series ser)
      = _trans_back ser (le._cats.getD []) (le._dtype.getD Dtype.object) := by
  obtain ⟨cats, dt, f⟩ := le
  have hf' : f = true := hf
  subst hf'
  rfl

/-- Claim C1: an encoder fitted on at least 11 distinct digit-free labels
decodes the code series `[10, 1, 0]` to exactly the vocabulary keys at
positions 10, 1 and 0, because the textual decode processes distinct codes
in descending numeric order. -/
theorem C1_decode_positions (L : List Str)
    (hlen : 11 ≤ (nvKeys L).length)
    (hdf : ∀ s ∈ L, ∀ c ∈ s, isDigitChar c = false) :
    inverse_transform (fit labelEncoderInit ⟨Dtype.object, L.map Value.str⟩)
        (InvInput.series [10, 1, 0])
      = Except.ok ⟨Dtype.object,
          [Value.str ((nvKeys L).getD 10 []),
           Value.str ((nvKeys L).getD 1 []),
           Value.str ((nvKeys L).getD 0 [])]⟩ := by
  have hkeysdf : ∀ k ∈ nvKeys L, ∀ c ∈ k, isDigitChar c = false :=
    fun k hk => hdf k ((mem_nvKeys k L).mp hk)
  have hfit : fit labelEncoderInit ⟨Dtype.object, L.map Value.str⟩
      = ⟨some (nvKeys L), some Dtype.object, true⟩ := by
    rw [fit_eq, enforce_str_of_strs]
  rw [hfit, inverse_transform_fitted ⟨some (nvKeys L), some Dtype.object, true⟩ rfl]
  show _trans_back [10, 1, 0] (nvKeys L) Dtype.object = _
  have hlen' : (11 : Int) ≤ ((nvKeys L).length : Int) := by exact_mod_cast hlen
  have hrange : ∀ d ∈ ([10, 1, 0] : List Int),
      0 ≤ d ∧ d < ((nvKeys L).length : Int) := by
    intro d hd
    simp only [List.mem_cons, List.not_mem_nil, or_false] at hd
    rcases hd with rfl | rfl | rfl <;> constructor <;> omega
  have hsort : sortDescU [10, 1, 0] = [10, 1, 0] := by decide
  have hbuf : ([10, 1, 0] : List Int).map intToStr
      = ([10, 1, 0] : List Int).map
          (fun c => if c ∈ ([10, 1, 0] : List Int) then intToStr c
            else (nvKeys L).getD c.toNat []) := by
    apply List.map_congr_left
    intro c hc
    rw [if_pos hc]
  unfold _trans_back
  rw [hsort, hbuf,
    transBackLoop_ok (nvKeys L) hkeysdf [10, 1, 0] [10, 1, 0]
      (by decide) hrange hrange]
  rfl

/-- Concrete instance of C1: eleven single-letter labels. -/
theorem C1_decode_positions_witness :
    inverse_transform
        (fit labelEncoderInit ⟨Dtype.object,
          ([['a'], ['b'], ['c'], ['d'], ['e'], ['f'], ['g'], ['h'], ['i'], ['j'], ['k']]
            : List Str).map Value.str⟩)
        (InvInput.series [10, 1, 0])
      = Except.ok ⟨Dtype.object,
          [Value.str ((nvKeys [['a'], ['b'], ['c'], ['d'], ['e'], ['f'], ['g'], ['h'],
              ['i'], ['j'], ['k']]).getD 10 []),
           Value.str ((nvKeys [['a'], ['b'], ['c'], ['d'], ['e'], ['f'], ['g'], ['h'],
              ['i'], ['j'], ['k']]).getD 1 []),
           Value.str ((nvKeys [['a'], ['b'], ['c'], ['d'], ['e'], ['f'], ['g'], ['h'],
              ['i'], ['j'], ['k']]).getD 0 [])]⟩ :=
  C1_decode_positions
    [['a'], ['b'], ['c'], ['d'], ['e'], ['f'], ['g'], ['h'], ['i'], ['j'], ['k']]
    (by decide) (by decide)

/-- Claim C2: for a non-empty digit-free label list, `inverse_transform`
of `fit_transform` is the identity, element-wise. -/
theorem C2_roundtrip (L : List Str) (hne : L ≠ [])
    (hdf : ∀ s ∈ L, ∀ c ∈ s, isDigitChar c = false) :
    inverse_transform
        (fit_transform labelEncoderInit ⟨Dtype.object, L.map Value.str⟩).1
        (InvInput.series
          (fit_transform labelEncoderInit ⟨Dtype.object, L.map Value.str⟩).2)
      = Except.ok ⟨Dtype.object, L.map Value.str⟩ := by
  have hkeysdf : ∀ k ∈ nvKeys L, ∀ c ∈ k, isDigitChar c = false :=
    fun k hk => hdf k ((mem_nvKeys k L).mp hk)
  have hft : fit_transform labelEncoderInit ⟨Dtype.object, L.map Value.str⟩
      = (⟨some (nvKeys L), some Dtype.object, true⟩,
         L.map (lookupCode (nvKeys L))) := by
    rw [fit_transform_eq, enforce_str_of_strs]
  rw [hft, inverse_transform_fitted ⟨some (nvKeys L), some Dtype.object, true⟩ rfl]
  show _trans_back (L.map (lookupCode (nvKeys L))) (nvKeys L) Dtype.object = _
  have hser : ∀ c ∈ L.map (lookupCode (nvKeys L)),
      0 ≤ c ∧ c < ((nvKeys L).length : Int) := by
    intro c hc
    rcases List.mem_map.mp hc with ⟨s, hs, rfl⟩
    have hmem : s ∈ nvKeys L := (mem_nvKeys s L).mpr hs
    have h := lookupCode_of_mem (nvKeys L) s hmem
    exact ⟨h.1, h.2.1⟩
  have hsortmem : ∀ d ∈ sortDescU (L.map (lookupCode (nvKeys L))),
      0 ≤ d ∧ d < ((nvKeys L).length : Int) :=
    fun d hd => hser d ((mem_sortDescU d _).mp hd)
  have hbuf : (L.map (lookupCode (nvKeys L))).map intToStr
      = (L.map (lookupCode (nvKeys L))).map
          (fun c => if c ∈ sortDescU (L.map (lookupCode (nvKeys L))) then intToStr c
            else (nvKeys L).getD c.toNat []) := by
    apply List.map_congr_left
    intro c hc
    rw [if_pos ((mem_sortDescU c _).mpr hc)]
  unfold _trans_back
  rw [hbuf,
    transBackLoop_ok (nvKeys L) hkeysdf (sortDescU (L.map (lookupCode (nvKeys L))))
      (L.map (lookupCode (nvKeys L))) (pairwise_sortDescU _) hsortmem hser]
  have hdec : (L.map (lookupCode (nvKeys L))).map
      (fun c => (nvKeys L).getD c.toNat []) = L := by
    rw [List.map_map]
    have hpt : ∀ s ∈ L,
        ((fun c : Int => (nvKeys L).getD c.toNat []) ∘ lookupCode (nvKeys L)) s
          = s := by
      intro s hs
      have hmem : s ∈ nvKeys L := (mem_nvKeys s L).mpr hs
      exact (lookupCode_of_mem (nvKeys L) s hmem).2.2
    calc L.map ((fun c : Int => (nvKeys L).getD c.toNat []) ∘ lookupCode (nvKeys L))
        = L.map (fun s => s) := List.map_congr_left hpt
    _ = L := List.map_id' L
  rw [hdec]
  have hcast : castSeries Dtype.object L = ⟨Dtype.object, L.map Value.str⟩ := by
    unfold castSeries
    have : castTo Dtype.object = Value.str := by funext s; rfl
    rw [this]
  show Except.ok (castSeries Dtype.object L)
    = Except.ok (⟨Dtype.object, L.map Value.str⟩ : Series)
  rw [hcast]

/-- Concrete instance of C2: the two labels `ab` and `c`. -/
theorem C2_roundtrip_witness :
    inverse_transform
        (fit_transform labelEncoderInit
          ⟨Dtype.object, ([['a', 'b'], ['c']] : List Str).map Value.str⟩).1
        (InvInput.series
          (fit_transform labelEncoderInit
            ⟨Dtype.object, ([['a', 'b'], ['c']] : List Str).map Value.str⟩).2)
      = Except.ok ⟨Dtype.object, ([['a', 'b'], ['c']] : List Str).map Value.str⟩ :=
  C2_roundtrip [['a', 'b'], ['c']] (by decide) (by decide)

/-- Claim C3: on a fitted encoder, `transform` of an input containing a
value absent from the fitted vocabulary raises the unseen-label error
(the source's `KeyError`) and surfaces no codes; and no successful
`transform` result ever contains the sentinel `-1`. -/
theorem C3_transform_unseen (le : LabelEncoder) (y : Series)
    (hf : le._fitted = true) :
    ((∃ s ∈ _enforce_str y, s ∉ le._cats.getD []) →
      transform le y = Except.error LEError.unseenKeyError)
    ∧ (∀ r, transform le y = Except.ok r → (-1 : Int) ∉ r) := by
  have ht := transform_fitted le hf y
  constructor
  · intro hunseen
    rcases hunseen with ⟨s, hs, hnot⟩
    have hcode : lookupCode (le._cats.getD []) s = -1 :=
      lookupCode_of_not_mem _ s hnot
    have hmem : (-1 : Int) ∈ (_enforce_str y).map (lookupCode (le._cats.getD [])) :=
      List.mem_map.mpr ⟨s, hs, hcode⟩
    rw [ht, if_pos hmem]
  · intro r hr
    rw [ht] at hr
    by_cases hmem : (-1 : Int) ∈ (_enforce_str y).map (lookupCode (le._cats.getD []))
    · rw [if_pos hmem] at hr
      cases hr
    · rw [if_neg hmem] at hr
      have : (_enforce_str y).map (lookupCode (le._cats.getD [])) = r :=
        Except.ok.inj hr
      rw [← this]
      exact hmem

/-- Concrete instance of C3: an encoder fitted on `a` rejects `z`. -/
theorem C3_transform_unseen_witness :
    transform (fit labelEncoderInit ⟨Dtype.object, [Value.str ['a']]⟩)
        ⟨Dtype.object, [Value.str ['z']]⟩
      = Except.error LEError.unseenKeyError :=
  (C3_transform_unseen (fit labelEncoderInit ⟨Dtype.object, [Value.str ['a']]⟩)
    ⟨Dtype.object, [Value.str ['z']]⟩ rfl).1 (by decide)

/-- Claim C4: on a fresh encoder, `fit_transform` leaves the same fitted
state as `fit` and returns exactly the codes the follow-up `transform`
returns; that `transform` succeeds, so the fused path cannot hit the
unseen-label error (by construction it raises nothing at all). -/
theorem C4_fit_transform_equiv (y : Series) :
    (fit_transform labelEncoderInit y).1 = fit labelEncoderInit y
    ∧ transform (fit labelEncoderInit y) y
        = Except.ok ((fit_transform labelEncoderInit y).2) := by
  constructor
  · rfl
  · have ht := transform_fitted (fit labelEncoderInit y) rfl y
    have hnot : (-1 : Int) ∉ (_enforce_str y).map
        (lookupCode ((fit labelEncoderInit y)._cats.getD [])) := by
      intro hmem
      rcases List.mem_map.mp hmem with ⟨s, hs, heq⟩
      have hmemk : s ∈ (fit labelEncoderInit y)._cats.getD [] := by
        show s ∈ nvKeys (_enforce_str y)
        exact (mem_nvKeys s (_enforce_str y)).mpr hs
      have := (lookupCode_of_mem _ s hmemk).1
      omega
    rw [ht, if_neg hnot]
    rfl

/-- Claim C5: on a fitted encoder, `inverse_transform` of a code series
containing any code outside `[0, vocabulary_size)` ends in a `ValueError`
and yields no decoded series. -/
theorem C5_inverse_range_check (le : LabelEncoder) (ser : List Int)
    (hf : le._fitted = true)
    (hbad : ∃ c ∈ ser, c < 0 ∨ ((le._cats.getD []).length : Int) ≤ c) :
    ∃ d, inverse_transform le (InvInput.series ser)
        = Except.error (LEError.valueError d) := by
  rcases hbad with ⟨c, hc, hcb⟩
  have hsorted : c ∈ sortDescU ser := (mem_sortDescU c ser).mpr hc
  rcases transBackLoop_err (le._cats.getD []) (sortDescU ser) (ser.map intToStr)
    ⟨c, hsorted, hcb⟩ with ⟨d, hd⟩
  refine ⟨d, ?_⟩
  rw [inverse_transform_fitted le hf ser]
  unfold _trans_back
  rw [hd]

/-- Concrete instance of C5: code 5 against a one-key vocabulary. -/
theorem C5_inverse_range_check_witness :
    ∃ d, inverse_transform (fit labelEncoderInit ⟨Dtype.object, [Value.str ['a']]⟩)
        (InvInput.series [5])
      = Except.error (LEError.valueError d) :=
  C5_inverse_range_check (fit labelEncoderInit ⟨Dtype.object, [Value.str ['a']]⟩)
    [5] rfl (by decide)

/-- Claim C6: on the fresh encoder state, `transform` and
`inverse_transform` both fail with the not-fitted error (the source's
`RuntimeError`) whatever the input is. -/
theorem C6_not_fitted_guard (y : Series) (yi : InvInput) :
    transform labelEncoderInit y = Except.error LEError.notFittedError
    ∧ inverse_transform labelEncoderInit yi = Except.error LEError.notFittedError := by
  constructor
  · rfl
  · rfl

/-- Claim C7: fitting on integer labels records the integer dtype, and any
successful `inverse_transform` on that encoder returns a series tagged with
the original integer dtype all of whose values are ints, not strings. -/
theorem C7_dtype_preserved (L : List Int) (ser : List Int) (out : Series)
    (h : inverse_transform
        (fit_transform labelEncoderInit ⟨Dtype.int64, L.map Value.int⟩).1
        (InvInput.series ser) = Except.ok out) :
    (fit labelEncoderInit ⟨Dtype.int64, L.map Value.int⟩)._dtype = some Dtype.int64
    ∧ (fit_transform labelEncoderInit ⟨Dtype.int64, L.map Value.int⟩).1._dtype
        = some Dtype.int64
    ∧ out.dtype = Dtype.int64
    ∧ ∀ v ∈ out.vals, ∃ i, v = Value.int i := by
  rw [inverse_transform_fitted _ rfl ser] at h
  unfold _trans_back at h
  cases hres : transBackLoop
      ((fit_transform labelEncoderInit ⟨Dtype.int64, L.map Value.int⟩).1._cats.getD [])
      (sortDescU ser) (ser.map intToStr) with
  | error e => rw [hres] at h; cases h
  | ok buf =>
    rw [hres] at h
    have hout : castSeries
        ((fit_transform labelEncoderInit
          ⟨Dtype.int64, L.map Value.int⟩).1._dtype.getD Dtype.object) buf = out :=
      Except.ok.inj h
    have hdt : (fit_transform labelEncoderInit
        ⟨Dtype.int64, L.map Value.int⟩).1._dtype.getD Dtype.object = Dtype.int64 := rfl
    rw [hdt] at hout
    refine ⟨rfl, rfl, ?_, ?_⟩
    · rw [← hout]
      rfl
    · intro v hv
      rw [← hout] at hv
      rcases List.mem_map.mp hv with ⟨s, _, heq⟩
      exact ⟨atoi s, heq.symm⟩

/-- Concrete instance of C7: integer labels `[10, 20, 10, 30]`; decoding the
returned codes gives integer-typed values again. -/
theorem C7_dtype_preserved_witness :
    (fit labelEncoderInit
        ⟨Dtype.int64, ([10, 20, 10, 30] : List Int).map Value.int⟩)._dtype
      = some Dtype.int64
    ∧ (fit_transform labelEncoderInit
        ⟨Dtype.int64, ([10, 20, 10, 30] : List Int).map Value.int⟩).1._dtype
      = some Dtype.int64
    ∧ (⟨Dtype.int64, [Value.int 10, Value.int 210, Value.int 10, Value.int 310]⟩
        : Series).dtype = Dtype.int64
    ∧ ∀ v ∈ (⟨Dtype.int64,
        [Value.int 10, Value.int 210, Value.int 10, Value.int 310]⟩ : Series).vals,
        ∃ i, v = Value.int i :=
  C7_dtype_preserved [10, 20, 10, 30] [0, 1, 0, 2]
    ⟨Dtype.int64, [Value.int 10, Value.int 210, Value.int 10, Value.int 310]⟩ rfl

/-- One public call on the encoder object. -/
inductive MethodCall
| fitC (y : Series)
| transformC (y : Series)
| fitTransformC (y : Series)
| inverseC (y : InvInput)

/-- The value a successful call returns. -/
inductive MethodResult
| encoderR
| codesR (codes : List Int)
| seriesR (s : Series)

/-- Dispatch one public call: the state after the call paired with its
outcome.  `fit` and `fit_transform` install the new state (and never raise);
`transform` and `inverse_transform` contain no assignment to `self`, so the
state component is the incoming one. -/
def runMethod (le : LabelEncoder) :
    MethodCall → LabelEncoder × Except LEError MethodResult
| MethodCall.fitC y => (fit le y, Except.ok MethodResult.encoderR)
| MethodCall.transformC y => (le, (transform le y).map MethodResult.codesR)
| MethodCall.fitTransformC y =>
  ((fit_transform le y).1, Except.ok (MethodResult.codesR (fit_transform le y).2))
| MethodCall.inverseC y => (le, (inverse_transform le y).map MethodResult.seriesR)

/-- Claim C8: whenever any of the four public methods ends in an error, the
encoder state observable afterwards is exactly the state before the call;
`fit` and `fit_transform` have no failing path at all. -/
theorem C8_error_frame (le : LabelEncoder) (call : MethodCall) (e : LEError)
    (h : (runMethod le call).2 = Except.error e) :
    (runMethod le call).1 = le := by
  cases call with
  | fitC y => simp [runMethod] at h
  | transformC y => rfl
  | fitTransformC y => simp [runMethod] at h
  | inverseC y => rfl

/-- Concrete instance of C8: a failing `transform` on the fresh state leaves
the fresh state in place. -/
theorem C8_error_frame_witness :
    (runMethod labelEncoderInit
        (MethodCall.transformC ⟨Dtype.object, [Value.str ['a']]⟩)).1
      = labelEncoderInit :=
  C8_error_frame labelEncoderInit
    (MethodCall.transformC ⟨Dtype.object, [Value.str ['a']]⟩)
    LEError.notFittedError rfl

/-- Claim C9: on a fitted encoder, `inverse_transform` of an argument that
is not a `cudf.Series` raises `TypeError` and returns nothing. -/
theorem C9_inverse_type_error (le : LabelEncoder) (hf : le._fitted = true) :
    inverse_transform le InvInput.notSeries = Except.error LEError.typeError := by
  obtain ⟨cats, dt, f⟩ := le
  have hf' : f = true := hf
  subst hf'
  rfl

/-- Concrete instance of C9. -/
theorem C9_inverse_type_error_witness :
    inverse_transform (fit labelEncoderInit ⟨Dtype.object, [Value.str ['a']]⟩)
        InvInput.notSeries
      = Except.error LEError.typeError :=
  C9_inverse_type_error (fit labelEncoderInit ⟨Dtype.object, [Value.str ['a']]⟩) rfl

/-- Claim C10: the round trip breaks on digit-containing labels.  Fitting on
`["b0", "a"]` sorts the keys to `["a", "b0"]` and returns the in-range codes
`[1, 0]`; decoding replaces the text `0` inside the already-substituted key
`b0`, so `inverse_transform` returns `["ba", "a"]`, not the original labels. -/
theorem C10_digit_corruption :
    (fit_transform labelEncoderInit
        ⟨Dtype.object, [Value.str ['b', '0'], Value.str ['a']]⟩).2 = [1, 0]
    ∧ inverse_transform
        (fit_transform labelEncoderInit
          ⟨Dtype.object, [Value.str ['b', '0'], Value.str ['a']]⟩).1
        (InvInput.series
          (fit_transform labelEncoderInit
            ⟨Dtype.object, [Value.str ['b', '0'], Value.str ['a']]⟩).2)
      = Except.ok ⟨Dtype.object, [Value.str ['b', 'a'], Value.str ['a']]⟩
    ∧ ([Value.str ['b', 'a'], Value.str ['a']] : List Value)
        ≠ [Value.str ['b', '0'], Value.str ['a']] := by
  refine ⟨rfl, rfl, by decide⟩
